import Mathlib

/-!
Verification of the real-time audio processing core (`rtprocessor.py`,
`guitar_effects.py`, `demo.py`).

Samples are modelled as real numbers (the Python code computes with
floating-point doubles; the embedding uses exact real/rational arithmetic,
and `int(...)` truncations of nonnegative quantities become natural-number
division).  The circular buffer, the processor contract and every effect of
the catalog are translated directly from the source.
-/

/-- Circular buffer of past samples (`CircularBuffer` in `rtprocessor.py`).
`length` is the Python `self.length = length + 1` (capacity), `buf` the
backing array, `ix` the write cursor. -/
structure CircularBuffer (α : Type) where
  length : ℕ
  buf : List α
  ix : ℕ

/-- `CircularBuffer.__init__(self, length)`: capacity `length + 1`, zeroed
backing store, cursor at `self.length - 1`. -/
def CircularBuffer.init (α : Type) [Zero α] (length : ℕ) : CircularBuffer α :=
  ⟨length + 1, List.replicate (length + 1) 0, length⟩

/-- `push(self, x)`: advance the cursor modulo the capacity and overwrite. -/
def CircularBuffer.push (b : CircularBuffer α) (x : α) : CircularBuffer α :=
  ⟨b.length, b.buf.set ((b.ix + 1) % b.length) x, (b.ix + 1) % b.length⟩

/-- Index computed by `get`: `np.mod(self.ix + self.length - n, self.length)`,
with numpy/Python modulo semantics (result has the sign of the divisor),
hence integer `emod`. -/
def CircularBuffer.idx (b : CircularBuffer α) (n : ℕ) : ℕ :=
  (((b.ix : ℤ) + (b.length : ℤ) - (n : ℤ)) % (b.length : ℤ)).toNat

/-- `get(self, n)`: read the slot `np.mod(self.ix + self.length - n, self.length)`. -/
def CircularBuffer.get [Zero α] (b : CircularBuffer α) (n : ℕ) : α :=
  b.buf.getD (b.idx n) 0

/-- Pushing a list of values in order. -/
def CircularBuffer.pushList (b : CircularBuffer α) (vs : List α) : CircularBuffer α :=
  vs.foldl CircularBuffer.push b

/-- Well-formedness: backing store sized to the capacity, cursor in range. -/
def CircularBuffer.WF (b : CircularBuffer α) : Prop :=
  b.buf.length = b.length ∧ b.ix < b.length

/-- Abstract view of a history: `histGet vs i` is the value pushed `i` pushes
ago after exactly the pushes `vs` (0 when fewer than `i + 1` pushes happened). -/
def histGet [Zero α] (vs : List α) (i : ℕ) : α :=
  if i < vs.length then vs.getD (vs.length - 1 - i) 0 else 0

theorem List.getD_set_ne {α : Type} (l : List α) (m k : ℕ) (v d : α) (h : m ≠ k) :
    (l.set m v).getD k d = l.getD k d := by
  rcases lt_or_ge k l.length with hk | hk
  · rw [List.getD_eq_getElem _ _ (by simpa using hk), List.getD_eq_getElem _ _ hk]
    exact l.getElem_set_of_ne h v _
  · rw [List.getD_eq_default _ _ (by simpa using hk), List.getD_eq_default _ _ hk]

theorem List.getD_eq_zero_of_forall {α : Type} [Zero α] (l : List α) (j : ℕ)
    (h : ∀ v ∈ l, v = 0) : l.getD j 0 = 0 := by
  rcases lt_or_ge j l.length with hj | hj
  · rw [List.getD_eq_getElem _ _ hj]
    exact h _ (List.getElem_mem hj)
  · exact List.getD_eq_default _ _ hj

theorem CircularBuffer.wf_init (α : Type) [Zero α] (d : ℕ) : (CircularBuffer.init α d).WF := by
  constructor
  · simp [CircularBuffer.init]
  · simp [CircularBuffer.init]

theorem CircularBuffer.length_pos {b : CircularBuffer α} (hb : b.WF) : 0 < b.length :=
  Nat.lt_of_le_of_lt (Nat.zero_le _) hb.2

theorem CircularBuffer.wf_push {b : CircularBuffer α} (hb : b.WF) (v : α) : (b.push v).WF := by
  obtain ⟨h1, h2⟩ := hb
  refine ⟨by simp [CircularBuffer.push, h1], ?_⟩
  exact Nat.mod_lt _ (CircularBuffer.length_pos ⟨h1, h2⟩)

theorem CircularBuffer.wf_pushList {b : CircularBuffer α} (hb : b.WF) (vs : List α) :
    (b.pushList vs).WF := by
  induction vs generalizing b with
  | nil => exact hb
  | cons v vs ih => exact ih (CircularBuffer.wf_push hb v)

theorem CircularBuffer.length_push (b : CircularBuffer α) (v : α) :
    (b.push v).length = b.length := rfl

theorem CircularBuffer.length_pushList (b : CircularBuffer α) (vs : List α) :
    (b.pushList vs).length = b.length := by
  induction vs generalizing b with
  | nil => rfl
  | cons v vs ih => exact ih (b.push v)

theorem CircularBuffer.pushList_nil (b : CircularBuffer α) : b.pushList [] = b := rfl

theorem CircularBuffer.pushList_cons (b : CircularBuffer α) (v : α) (vs : List α) :
    b.pushList (v :: vs) = (b.push v).pushList vs := rfl

theorem CircularBuffer.pushList_concat (b : CircularBuffer α) (vs : List α) (v : α) :
    b.pushList (vs ++ [v]) = (b.pushList vs).push v := by
  simp [CircularBuffer.pushList, List.foldl_append]

theorem CircularBuffer.idx_lt {b : CircularBuffer α} (hL : 0 < b.length) (n : ℕ) :
    b.idx n < b.length := by
  have hL' : (0:ℤ) < (b.length : ℤ) := by exact_mod_cast hL
  have h1 : 0 ≤ ((b.ix : ℤ) + (b.length : ℤ) - (n : ℤ)) % (b.length : ℤ) :=
    Int.emod_nonneg _ (ne_of_gt hL')
  have h2 : ((b.ix : ℤ) + (b.length : ℤ) - (n : ℤ)) % (b.length : ℤ) < (b.length : ℤ) :=
    Int.emod_lt_of_pos _ hL'
  unfold CircularBuffer.idx
  omega

theorem Int.emod_absorb_left (a c L : ℤ) : (a % L + c) % L = (a + c) % L := by
  rw [Int.add_emod, Int.emod_emod_of_dvd _ dvd_rfl, ← Int.add_emod]

theorem CircularBuffer.ix_push_int {b : CircularBuffer α} (hb : b.WF) (v : α) :
    ((b.push v).ix : ℤ) = ((b.ix : ℤ) + 1) % (b.length : ℤ) := by
  have : (b.push v).ix = (b.ix + 1) % b.length := rfl
  rw [this]
  push_cast
  rfl

theorem CircularBuffer.idx_push_zero {b : CircularBuffer α} (hb : b.WF) (v : α) :
    (b.push v).idx 0 = (b.push v).ix := by
  have hwf := CircularBuffer.wf_push hb v
  have hL : (0:ℤ) < ((b.push v).length : ℤ) := by
    exact_mod_cast CircularBuffer.length_pos hwf
  unfold CircularBuffer.idx
  have h0 : (((b.push v).ix : ℤ) + ((b.push v).length : ℤ) - (0:ℕ)) % ((b.push v).length : ℤ)
      = ((b.push v).ix : ℤ) := by
    have : (((b.push v).ix : ℤ) + ((b.push v).length : ℤ) - (0:ℕ))
        = ((b.push v).ix : ℤ) + ((b.push v).length : ℤ) * 1 := by push_cast; ring
    rw [this, Int.add_mul_emod_self_left]
    exact Int.emod_eq_of_lt (by positivity) (by exact_mod_cast hwf.2)
  rw [h0]
  exact Int.toNat_ofNat _

theorem CircularBuffer.idx_push_succ {b : CircularBuffer α} (hb : b.WF) (v : α)
    (i : ℕ) (hi : i + 1 < b.length) :
    (b.push v).idx (i + 1) = b.idx i := by
  have hL : (0:ℤ) < (b.length : ℤ) := by exact_mod_cast CircularBuffer.length_pos hb
  unfold CircularBuffer.idx
  rw [CircularBuffer.length_push]
  rw [CircularBuffer.ix_push_int hb v]
  congr 1
  have step1 : (((b.ix : ℤ) + 1) % (b.length : ℤ) + ((b.length : ℤ) - ((i+1 : ℕ) : ℤ)))
        % (b.length : ℤ)
      = (((b.ix : ℤ) + 1) + ((b.length : ℤ) - ((i+1 : ℕ) : ℤ))) % (b.length : ℤ) :=
    Int.emod_absorb_left _ _ _
  have step2 : (((b.ix : ℤ) + 1) + ((b.length : ℤ) - ((i+1 : ℕ) : ℤ)))
      = (b.ix : ℤ) + (b.length : ℤ) - (i : ℤ) := by push_cast; ring
  calc (((b.ix : ℤ) + 1) % (b.length : ℤ) + (b.length : ℤ) - ((i+1 : ℕ) : ℤ)) % (b.length : ℤ)
      = (((b.ix : ℤ) + 1) % (b.length : ℤ) + ((b.length : ℤ) - ((i+1 : ℕ) : ℤ)))
          % (b.length : ℤ) := by ring_nf
    _ = (((b.ix : ℤ) + 1) + ((b.length : ℤ) - ((i+1 : ℕ) : ℤ))) % (b.length : ℤ) := step1
    _ = ((b.ix : ℤ) + (b.length : ℤ) - (i : ℤ)) % (b.length : ℤ) := by rw [step2]

theorem CircularBuffer.get_push_zero [Zero α] {b : CircularBuffer α} (hb : b.WF) (v : α) :
    (b.push v).get 0 = v := by
  have hwf := CircularBuffer.wf_push hb v
  unfold CircularBuffer.get
  rw [CircularBuffer.idx_push_zero hb v]
  have hlt : (b.push v).ix < (b.push v).buf.length := by
    rw [hwf.1]; exact hwf.2
  rw [List.getD_eq_getElem _ _ hlt]
  have hlt' : (b.ix + 1) % b.length < b.buf.length := by
    rw [hb.1]; exact Nat.mod_lt _ (CircularBuffer.length_pos hb)
  exact List.getElem_set_self (by simpa using hlt')

theorem CircularBuffer.get_push_succ [Zero α] {b : CircularBuffer α} (hb : b.WF) (v : α)
    (i : ℕ) (hi : i + 1 < b.length) :
    (b.push v).get (i + 1) = b.get i := by
  have hL : (0:ℤ) < (b.length : ℤ) := by exact_mod_cast CircularBuffer.length_pos hb
  unfold CircularBuffer.get
  rw [CircularBuffer.idx_push_succ hb v i hi]
  show (b.buf.set ((b.ix + 1) % b.length) v).getD (b.idx i) 0 = b.buf.getD (b.idx i) 0
  apply List.getD_set_ne
  intro heq
  -- equal cursor and read positions would force `b.length ∣ i + 1`, impossible
  have hcast : (((b.ix + 1) % b.length : ℕ) : ℤ) = ((b.ix : ℤ) + 1) % (b.length : ℤ) := by
    push_cast; rfl
  have hidx : (b.idx i : ℤ) = ((b.ix : ℤ) + (b.length : ℤ) - (i : ℤ)) % (b.length : ℤ) := by
    unfold CircularBuffer.idx
    exact Int.toNat_of_nonneg (Int.emod_nonneg _ (ne_of_gt hL))
  have heq' : ((b.ix : ℤ) + 1) % (b.length : ℤ)
      = ((b.ix : ℤ) + (b.length : ℤ) - (i : ℤ)) % (b.length : ℤ) := by
    rw [← hcast, ← hidx, heq]
  have hdvd : (b.length : ℤ) ∣ (((b.ix : ℤ) + (b.length : ℤ) - (i : ℤ)) - ((b.ix : ℤ) + 1)) :=
    Int.ModEq.dvd heq'
  have hdvd2 : (b.length : ℤ) ∣ ((i : ℤ) + 1) := by
    have h3 : (((b.ix : ℤ) + (b.length : ℤ) - (i : ℤ)) - ((b.ix : ℤ) + 1))
        = (b.length : ℤ) - ((i : ℤ) + 1) := by ring
    rw [h3] at hdvd
    have := (dvd_sub_right (dvd_refl (b.length : ℤ))).mp hdvd
    simpa using this
  have hle : (b.length : ℤ) ≤ (i : ℤ) + 1 :=
    Int.le_of_dvd (by positivity) hdvd2
  omega

theorem histGet_nil [Zero α] (i : ℕ) : histGet ([] : List α) i = 0 := by
  simp [histGet]

theorem histGet_concat_zero [Zero α] (vs : List α) (v : α) :
    histGet (vs ++ [v]) 0 = v := by
  unfold histGet
  rw [if_pos (by simp)]
  simp only [List.length_append, List.length_cons, List.length_nil]
  have : vs.length + 1 - 1 - 0 = vs.length := by omega
  rw [this]
  rw [List.getD_append_right _ _ _ _ (le_refl _)]
  simp

theorem histGet_concat_succ [Zero α] (vs : List α) (v : α) (i : ℕ) :
    histGet (vs ++ [v]) (i + 1) = histGet vs i := by
  unfold histGet
  rcases lt_or_ge i vs.length with hi | hi
  · rw [if_pos (by simp; omega), if_pos hi]
    have h1 : vs.length + 1 - 1 - (i + 1) = vs.length - 1 - i := by omega
    simp only [List.length_append, List.length_cons, List.length_nil]
    rw [h1]
    exact List.getD_append _ _ _ _ (by omega)
  · rw [if_neg (by simp; omega), if_neg (by omega)]

theorem CircularBuffer.get_init (α : Type) [Zero α] (d i : ℕ) :
    (CircularBuffer.init α d).get i = 0 := by
  unfold CircularBuffer.get
  apply List.getD_eq_zero_of_forall
  intro v hv
  exact List.eq_of_mem_replicate hv

/-- Core buffer law: after pushing exactly the values `vs` into a fresh buffer of
maximum delay `d`, a `get i` with `i ≤ d` returns the value pushed `i` pushes ago
(`0` if fewer than `i + 1` values were ever pushed). -/
theorem CircularBuffer.get_pushList_init (α : Type) [Zero α] (d : ℕ) (vs : List α)
    (i : ℕ) (hi : i ≤ d) :
    ((CircularBuffer.init α d).pushList vs).get i = histGet vs i := by
  induction vs using List.reverseRecOn generalizing i with
  | nil => rw [CircularBuffer.pushList_nil, CircularBuffer.get_init, histGet_nil]
  | append_singleton vs v ih =>
    rw [CircularBuffer.pushList_concat]
    have hwf : ((CircularBuffer.init α d).pushList vs).WF :=
      CircularBuffer.wf_pushList (CircularBuffer.wf_init α d) vs
    have hlen : ((CircularBuffer.init α d).pushList vs).length = d + 1 :=
      CircularBuffer.length_pushList _ vs
    cases i with
    | zero => rw [CircularBuffer.get_push_zero hwf v, histGet_concat_zero]
    | succ j =>
      rw [CircularBuffer.get_push_succ hwf v j (by omega), histGet_concat_succ]
      exact ih j (by omega)

/-- `RTProcessor` (`rtprocessor.py`): sample rate `SF`, two circular histories
`x` and `y` sized by the effect's `max_delay`, plus any extra per-instance
state `st` of the concrete effect (e.g. an oscillator phase; `Unit` for the
stateless effects).  An effect is its `compute` function, the shallow
embedding of the overridden `_process` method: it reads the two histories and
the extra state and returns the output sample and the updated extra state. -/
structure RTProcessor (α σ : Type) where
  x : CircularBuffer α
  y : CircularBuffer α
  st : σ

/-- `RTProcessor.process(self, sample)`: push the sample into `x`, run the
effect's `_process`, push the result into `y`, return it. -/
def RTProcessor.process [Zero α]
    (compute : CircularBuffer α → CircularBuffer α → σ → α × σ)
    (p : RTProcessor α σ) (sample : α) : α × RTProcessor α σ :=
  let x := p.x.push sample
  let out := (compute x p.y p.st).1
  (out, ⟨x, p.y.push out, (compute x p.y p.st).2⟩)

/-- Feeding a sequence of samples one at a time, collecting the outputs
(the per-sample loop of the audio callback in `demo.py`). -/
def RTProcessor.run [Zero α]
    (compute : CircularBuffer α → CircularBuffer α → σ → α × σ) :
    RTProcessor α σ → List α → List α × RTProcessor α σ
  | p, [] => ([], p)
  | p, s :: rest =>
    let r := p.process compute s
    let rr := RTProcessor.run compute r.2 rest
    (r.1 :: rr.1, rr.2)

/-- A freshly constructed processor: both histories zeroed. -/
def RTProcessor.fresh (α : Type) [Zero α] (maxDelay : ℕ) (st : σ) : RTProcessor α σ :=
  ⟨CircularBuffer.init α maxDelay, CircularBuffer.init α maxDelay, st⟩

theorem RTProcessor.run_nil [Zero α]
    (compute : CircularBuffer α → CircularBuffer α → σ → α × σ) (p : RTProcessor α σ) :
    p.run compute [] = ([], p) := rfl

theorem RTProcessor.run_cons [Zero α]
    (compute : CircularBuffer α → CircularBuffer α → σ → α × σ) (p : RTProcessor α σ)
    (s : α) (rest : List α) :
    p.run compute (s :: rest) =
      (((p.process compute s).1 :: ((p.process compute s).2.run compute rest).1),
        ((p.process compute s).2.run compute rest).2) := rfl

theorem RTProcessor.run_fst_length [Zero α]
    (compute : CircularBuffer α → CircularBuffer α → σ → α × σ) (p : RTProcessor α σ)
    (xs : List α) : (p.run compute xs).1.length = xs.length := by
  induction xs generalizing p with
  | nil => rfl
  | cons s rest ih => simp [RTProcessor.run_cons, ih]

theorem RTProcessor.run_append [Zero α]
    (compute : CircularBuffer α → CircularBuffer α → σ → α × σ) (p : RTProcessor α σ)
    (xs ys : List α) :
    p.run compute (xs ++ ys) =
      ((p.run compute xs).1 ++ ((p.run compute xs).2.run compute ys).1,
        ((p.run compute xs).2.run compute ys).2) := by
  induction xs generalizing p with
  | nil => simp [RTProcessor.run_nil]
  | cons s rest ih => simp [RTProcessor.run_cons, ih]

theorem RTProcessor.run_x [Zero α]
    (compute : CircularBuffer α → CircularBuffer α → σ → α × σ) (p : RTProcessor α σ)
    (xs : List α) : (p.run compute xs).2.x = p.x.pushList xs := by
  induction xs generalizing p with
  | nil => rfl
  | cons s rest ih =>
    rw [RTProcessor.run_cons, CircularBuffer.pushList_cons]
    exact ih (p.process compute s).2

theorem RTProcessor.run_y [Zero α]
    (compute : CircularBuffer α → CircularBuffer α → σ → α × σ) (p : RTProcessor α σ)
    (xs : List α) : (p.run compute xs).2.y = p.y.pushList (p.run compute xs).1 := by
  induction xs generalizing p with
  | nil => rfl
  | cons s rest ih =>
    rw [RTProcessor.run_cons]
    exact ih (p.process compute s).2

theorem RTProcessor.run_take [Zero α]
    (compute : CircularBuffer α → CircularBuffer α → σ → α × σ) (p : RTProcessor α σ)
    (xs : List α) (n : ℕ) :
    (p.run compute xs).1.take n = (p.run compute (xs.take n)).1 := by
  rcases le_or_lt xs.length n with h | h
  · rw [List.take_of_length_le h,
      List.take_of_length_le (by rw [RTProcessor.run_fst_length]; exact h)]
  · have hsplit : xs = xs.take n ++ xs.drop n := (List.take_append_drop n xs).symm
    have hlen1 : (p.run compute (xs.take n)).1.length = n := by
      rw [RTProcessor.run_fst_length, List.length_take]; omega
    conv_lhs => rw [hsplit]
    rw [RTProcessor.run_append]
    exact List.take_left' hlen1

/-- The sample at index `n` of a run: the effect's `compute`, applied to the
input history right after `xs[n]` was pushed, to the output history holding
exactly the previous outputs, and to the extra state left by the first `n`
samples. -/
theorem RTProcessor.run_getD [Zero α]
    (compute : CircularBuffer α → CircularBuffer α → σ → α × σ) (p : RTProcessor α σ)
    (xs : List α) (n : ℕ) (h : n < xs.length) :
    (p.run compute xs).1.getD n 0 =
      (compute ((p.run compute (xs.take n)).2.x.push (xs.getD n 0))
        ((p.run compute (xs.take n)).2.y)
        ((p.run compute (xs.take n)).2.st)).1 := by
  have hsplit : xs = xs.take n ++ xs.drop n := (List.take_append_drop n xs).symm
  have hlen1 : (p.run compute (xs.take n)).1.length = n := by
    rw [RTProcessor.run_fst_length, List.length_take]; omega
  conv_lhs => rw [hsplit]
  rw [RTProcessor.run_append]
  rw [List.getD_append_right _ _ _ _ (by omega)]
  rw [hlen1]
  have hdrop : xs.drop n = xs.getD n 0 :: xs.drop (n + 1) := by
    rw [List.getD_eq_getElem _ _ h]
    exact List.drop_eq_getElem_cons h
  rw [hdrop, RTProcessor.run_cons]
  simp [RTProcessor.process]

/-- Specialisation of `run_getD` to a freshly constructed processor: both
histories are exactly the pushed prefixes. -/
theorem RTProcessor.run_getD_fresh [Zero α]
    (compute : CircularBuffer α → CircularBuffer α → σ → α × σ) (d : ℕ) (st0 : σ)
    (xs : List α) (n : ℕ) (h : n < xs.length) :
    ((RTProcessor.fresh α d st0).run compute xs).1.getD n 0 =
      (compute ((CircularBuffer.init α d).pushList (xs.take (n + 1)))
        ((CircularBuffer.init α d).pushList
          (((RTProcessor.fresh α d st0).run compute xs).1.take n))
        (((RTProcessor.fresh α d st0).run compute (xs.take n)).2.st)).1 := by
  rw [RTProcessor.run_getD compute _ xs n h]
  have htake : xs.take (n + 1) = xs.take n ++ [xs.getD n 0] := by
    rw [List.getD_eq_getElem _ _ h]
    rw [← List.take_concat_get _ _ h, List.concat_eq_append]
  rw [RTProcessor.run_x, RTProcessor.run_y, RTProcessor.run_take]
  rw [htake, CircularBuffer.pushList_concat]
  rfl

noncomputable section

/-! ### The effect catalog (`guitar_effects.py`; `Delta` from `rtprocessor.py`)

Each effect is its `_process` body as a `compute` function plus its
constructor as an `init`/`runOn` pair.  `int(0.3 * self.SF)` and
`int(0.02 * self.SF)` are the exact-arithmetic truncations `3 * SF / 10`
and `2 * SF / 100` (natural-number division). -/

namespace Delta

def compute (x y : CircularBuffer ℝ) (st : Unit) : ℝ × Unit := (x.get 0, st)

def init (rate channels : ℕ) : RTProcessor ℝ Unit := RTProcessor.fresh ℝ 1 ()

def runOn (rate channels : ℕ) (xs : List ℝ) : List ℝ :=
  ((init rate channels).run compute xs).1

end Delta

namespace Echo

def a : ℝ := 1
def b : ℝ := 0.7
def c : ℝ := 0.5
def norm : ℝ := 1.0 / (a + b + c)
def N (SF : ℕ) : ℕ := 3 * SF / 10

def compute (SF : ℕ) (x y : CircularBuffer ℝ) (st : Unit) : ℝ × Unit :=
  (norm * (a * x.get 0 + b * x.get (N SF) + c * x.get (2 * N SF)), st)

def init (rate channels : ℕ) : RTProcessor ℝ Unit := RTProcessor.fresh ℝ rate ()

def runOn (rate channels : ℕ) (xs : List ℝ) : List ℝ :=
  ((init rate channels).run (compute rate) xs).1

end Echo

namespace Recursive_Echo

def a : ℝ := 0.7
def norm : ℝ := 1 - a * a
def N (SF : ℕ) : ℕ := 3 * SF / 10

def compute (SF : ℕ) (x y : CircularBuffer ℝ) (st : Unit) : ℝ × Unit :=
  (norm * (x.get 0 + a * y.get (N SF)), st)

def init (rate channels : ℕ) : RTProcessor ℝ Unit := RTProcessor.fresh ℝ rate ()

def runOn (rate channels : ℕ) (xs : List ℝ) : List ℝ :=
  ((init rate channels).run (compute rate) xs).1

end Recursive_Echo

namespace Natural_Echo

def a : ℝ := 0.8
def l : ℝ := 0.7
def N (SF : ℕ) : ℕ := 3 * SF / 10

def compute (SF : ℕ) (x y : CircularBuffer ℝ) (st : Unit) : ℝ × Unit :=
  (x.get 0 - l * x.get 1 + l * y.get 1 + a * (1 - l) * y.get (N SF), st)

def init (rate channels : ℕ) : RTProcessor ℝ Unit := RTProcessor.fresh ℝ rate ()

def runOn (rate channels : ℕ) (xs : List ℝ) : List ℝ :=
  ((init rate channels).run (compute rate) xs).1

end Natural_Echo

namespace Reverb

def a : ℝ := 0.8
def norm : ℝ := 0.5
def N (SF : ℕ) : ℕ := 2 * SF / 100

def compute (SF : ℕ) (x y : CircularBuffer ℝ) (st : Unit) : ℝ × Unit :=
  (norm * (-x.get 0 + x.get (N SF) + a * y.get (N SF)), st)

def init (rate channels : ℕ) : RTProcessor ℝ Unit := RTProcessor.fresh ℝ rate ()

def runOn (rate channels : ℕ) (xs : List ℝ) : List ℝ :=
  ((init rate channels).run (compute rate) xs).1

end Reverb

namespace Biquad

def pm : ℝ := 0.98
def pp : ℝ := 0.1 * Real.pi
def zm : ℝ := 0.9
def zp : ℝ := 0.06 * Real.pi
def b1 : ℝ := -2 * zm * Real.cos zp
def b2 : ℝ := zm * zm
def a1 : ℝ := -2 * pm * Real.cos pp
def a2 : ℝ := pm * pm
def norm : ℝ := 0.1

def compute (x y : CircularBuffer ℝ) (st : Unit) : ℝ × Unit :=
  (norm * (x.get 0 + b1 * x.get 1 + b2 * x.get 2 - a1 * y.get 1 - a2 * y.get 2), st)

def init (rate channels : ℕ) : RTProcessor ℝ Unit := RTProcessor.fresh ℝ 2 ()

def runOn (rate channels : ℕ) (xs : List ℝ) : List ℝ :=
  ((init rate channels).run compute xs).1

end Biquad

namespace Fuzz

/- Generic over a linear ordered field so that the two clamping branches stay
executable; the claims instantiate it at `ℝ`. -/

def T (α : Type) [LinearOrderedField α] : α := 0.005
def G (α : Type) [LinearOrderedField α] : α := 5
def limit (α : Type) [LinearOrderedField α] : α := 0x7FFFFFFF * T α

def compute {α : Type} [LinearOrderedField α] (x y : CircularBuffer α) (st : Unit) :
    α × Unit :=
  let y0 := x.get 0
  let y1 := if y0 > limit α then limit α else y0
  let y2 := if y1 < -limit α then -limit α else y1
  (G α * y2, st)

def init (rate channels : ℕ) : RTProcessor ℝ Unit := RTProcessor.fresh ℝ 1 ()

def runOn (rate channels : ℕ) (xs : List ℝ) : List ℝ :=
  ((init rate channels).run compute xs).1

end Fuzz

namespace Wah

/- `self.b1` and `self.a1` are recomputed inside `_process` from the
pre-increment `self.omega` on every call before being read, so the only
persistent extra state is the phase accumulator `omega`. -/

def pole_delta : ℝ := 0.3 * Real.pi
def phi (SF : ℕ) : ℝ := 3.0 * 2.0 * Real.pi / (SF : ℝ)
def pole_mag : ℝ := 0.99
def pole_phase : ℝ := 0.04 * Real.pi
def zero_mag : ℝ := 0.9
def zero_phase : ℝ := 0.06 * Real.pi
def b2 : ℝ := zero_mag * zero_mag
def a2 : ℝ := pole_mag * pole_mag
def d (omega : ℝ) : ℝ := pole_delta * (1.0 + Real.cos omega) / 2.0
def b1 (omega : ℝ) : ℝ := -2.0 * zero_mag * Real.cos (zero_phase + d omega)
def a1 (omega : ℝ) : ℝ := -2.0 * pole_mag * Real.cos (pole_phase + d omega)

def compute (SF : ℕ) (x y : CircularBuffer ℝ) (omega : ℝ) : ℝ × ℝ :=
  (0.3 * (x.get 0 + b1 omega * x.get 1 + b2 * x.get 2
      - a1 omega * y.get 1 - a2 * y.get 2),
    omega + phi SF)

def init (rate channels : ℕ) : RTProcessor ℝ ℝ := RTProcessor.fresh ℝ 2 0.0

def runOn (rate channels : ℕ) (xs : List ℝ) : List ℝ :=
  ((init rate channels).run (compute rate) xs).1

end Wah

namespace Tremolo

/- The source increments `self.omega` first and then evaluates the cosine, so
the cosine argument of the `n`-th processed sample (0-based) is `(n+1)·phi`. -/

def depth : ℝ := 0.9
def phi (SF : ℕ) : ℝ := 5 * 2 * Real.pi / (SF : ℝ)

def compute (SF : ℕ) (x y : CircularBuffer ℝ) (omega : ℝ) : ℝ × ℝ :=
  (((1.0 - depth) + depth * 0.5 * (1 + Real.cos (omega + phi SF))) * x.get 0,
    omega + phi SF)

def init (rate channels : ℕ) : RTProcessor ℝ ℝ := RTProcessor.fresh ℝ 1 0

def runOn (rate channels : ℕ) (xs : List ℝ) : List ℝ :=
  ((init rate channels).run (compute rate) xs).1

end Tremolo

end

/-! ### The selection control path (`demo.py`) -/

/-- The menu built by `demo.py`: index 0 is the reserved default `"Delta"`;
the remaining indices are the classes defined in `guitar_effects`, sorted by
their `order` attribute (10, 20, ..., 80). -/
def choices : List String :=
  [ "Delta", "Echo", "Recursive_Echo", "Natural_Echo", "Reverb", "Biquad", "Fuzz", "Wah",
    "Tremolo" ]

/-- One non-quit key press on the control path of `demo.py`'s main loop: the
decoded key `key - ord('0')` (an integer, possibly negative) indexes the dict
`choices`; a key outside its range raises `KeyError`, caught by
`except KeyError: pass`, which leaves the `processor` variable untouched and
keeps the loop (hence the session) running.  `mk i` stands for
`getattr(processing_module, choices[i])(RATE, CHANNELS)`. -/
def selectStep {P : Type} (mk : ℕ → P) (cur : P) (key : ℤ) : P :=
  if 0 ≤ key ∧ key < (choices.length : ℤ) then mk key.toNat else cur

theorem Int.sub_emod_right_congr (a b L : ℤ) : (a - b % L) % L = (a - b) % L := by
  rw [Int.sub_emod a (b % L), Int.emod_emod_of_dvd _ dvd_rfl, ← Int.sub_emod]

/-! ### Claims -/

/-- Claim C3: after pushing `v0, ..., vk` into a buffer constructed with
`maxDelay`, `get i` returns `v(k-i)` for every `i ≤ min k maxDelay`; in
particular `get 0` (the case `i = 0`) is the most recently pushed value. -/
theorem claim_C3_roundtrip {α : Type} [Zero α] (maxDelay : ℕ) (vs : List α)
    (k i : ℕ) (hvs : vs.length = k + 1) (hi : i ≤ min k maxDelay) :
    ((CircularBuffer.init α maxDelay).pushList vs).get i = vs.getD (k - i) 0 := by
  rw [CircularBuffer.get_pushList_init α maxDelay vs i (le_trans hi (min_le_right _ _))]
  unfold histGet
  have hik : i ≤ k := le_trans hi (min_le_left _ _)
  rw [if_pos (by omega)]
  congr 1
  omega

theorem claim_C3_witness :
    (([1, 2, 3] : List ℚ).length = 2 + 1 ∧ 1 ≤ min 2 5) ∧
    ((CircularBuffer.init ℚ 5).pushList [1, 2, 3]).get 1 = ([1, 2, 3] : List ℚ).getD (2 - 1) 0 :=
  ⟨⟨by simp, by norm_num⟩, claim_C3_roundtrip 5 [1, 2, 3] 2 1 (by simp) (by norm_num)⟩

/-- Claim C4: with capacity `C = maxDelay + 1`, `get` never rejects an offset:
for every `n`, `get n` aliases to `get (n % C)` (the unconditional modulo in
the reference `get`). -/
theorem claim_C4_get_alias {α : Type} [Zero α] (maxDelay : ℕ) (b : CircularBuffer α)
    (hC : b.length = maxDelay + 1) (n : ℕ) :
    b.get n = b.get (n % (maxDelay + 1)) := by
  suffices h : b.idx n = b.idx (n % (maxDelay + 1)) by
    unfold CircularBuffer.get
    rw [h]
  unfold CircularBuffer.idx
  congr 1
  rw [hC]
  have hcast : (((n % (maxDelay + 1)) : ℕ) : ℤ) = (n : ℤ) % (((maxDelay + 1) : ℕ) : ℤ) := by
    push_cast
    rfl
  rw [hcast, Int.sub_emod_right_congr]

theorem claim_C4_witness :
    ((CircularBuffer.init ℚ 2).push 7).length = 2 + 1 ∧
    ((CircularBuffer.init ℚ 2).push 7).get 8 = ((CircularBuffer.init ℚ 2).push 7).get (8 % (2 + 1)) :=
  ⟨rfl, claim_C4_get_alias 2 ((CircularBuffer.init ℚ 2).push 7) rfl 8⟩

/-- Claim C2: `process(sample)` pushes the sample into `x`, obtains the output
by invoking the effect's per-sample transform on the updated input history,
the untouched output history and the extra state, pushes exactly that output
into `y`, updates the extra state, and returns the output — one push into each
of the two histories per call. -/
theorem claim_C2_process_sequence {σ : Type}
    (compute : CircularBuffer ℝ → CircularBuffer ℝ → σ → ℝ × σ)
    (p : RTProcessor ℝ σ) (s : ℝ) :
    (p.process compute s).1 = (compute (p.x.push s) p.y p.st).1 ∧
    (p.process compute s).2.x = p.x.push s ∧
    (p.process compute s).2.y = p.y.push (p.process compute s).1 ∧
    (p.process compute s).2.st = (compute (p.x.push s) p.y p.st).2 :=
  ⟨rfl, rfl, rfl, rfl⟩

/-- Claim C9: for every effect of the catalog the output sequence does not
depend on the `channels` constructor argument (the reference
`RTProcessor.__init__` receives it and never reads it). -/
theorem claim_C9_channels_ignored (SF c1 c2 : ℕ) (xs : List ℝ) :
    Delta.runOn SF c1 xs = Delta.runOn SF c2 xs ∧
    Echo.runOn SF c1 xs = Echo.runOn SF c2 xs ∧
    Recursive_Echo.runOn SF c1 xs = Recursive_Echo.runOn SF c2 xs ∧
    Natural_Echo.runOn SF c1 xs = Natural_Echo.runOn SF c2 xs ∧
    Reverb.runOn SF c1 xs = Reverb.runOn SF c2 xs ∧
    Biquad.runOn SF c1 xs = Biquad.runOn SF c2 xs ∧
    Fuzz.runOn SF c1 xs = Fuzz.runOn SF c2 xs ∧
    Wah.runOn SF c1 xs = Wah.runOn SF c2 xs ∧
    Tremolo.runOn SF c1 xs = Tremolo.runOn SF c2 xs :=
  ⟨rfl, rfl, rfl, rfl, rfl, rfl, rfl, rfl, rfl⟩

/-- Claim C8: a selection key outside `[0, count-1]` leaves the active
processor unchanged (the `KeyError` is swallowed, the session continues);
a key inside the range constructs and publishes the chosen effect. -/
theorem claim_C8_selection {P : Type} (mk : ℕ → P) (cur : P) (key : ℤ) :
    ((key < 0 ∨ (choices.length : ℤ) ≤ key) → selectStep mk cur key = cur) ∧
    (0 ≤ key → key < (choices.length : ℤ) → selectStep mk cur key = mk key.toNat) := by
  have hlen : (choices.length : ℤ) = 9 := rfl
  constructor
  · intro h
    unfold selectStep
    rw [if_neg (by omega)]
  · intro h1 h2
    unfold selectStep
    rw [if_pos ⟨h1, h2⟩]

theorem claim_C8_witness :
    (((99 : ℤ) < 0 ∨ (choices.length : ℤ) ≤ 99) ∧
      selectStep (fun i => i) 42 99 = 42) ∧
    ((0 : ℤ) ≤ 3 ∧ (3 : ℤ) < (choices.length : ℤ) ∧
      selectStep (fun i => i) 42 3 = (3 : ℤ).toNat) :=
  ⟨⟨Or.inr (by norm_num [choices]), (claim_C8_selection (fun i => i) 42 99).1
      (Or.inr (by norm_num [choices]))⟩,
    ⟨by norm_num, by norm_num [choices], (claim_C8_selection (fun i => i) 42 3).2
      (by norm_num) (by norm_num [choices])⟩⟩

/-! ### Silence invariant machinery -/

/-- All stored samples of a buffer are zero. -/
def BufZero {α : Type} [Zero α] (b : CircularBuffer α) : Prop :=
  ∀ v ∈ b.buf, v = 0

theorem bufZero_get {α : Type} [Zero α] {b : CircularBuffer α} (hb : BufZero b) (n : ℕ) :
    b.get n = 0 :=
  List.getD_eq_zero_of_forall _ _ hb

theorem bufZero_init (α : Type) [Zero α] (d : ℕ) : BufZero (CircularBuffer.init α d) :=
  fun _ hv => List.eq_of_mem_replicate hv

theorem bufZero_push {α : Type} [Zero α] {b : CircularBuffer α} (hb : BufZero b) :
    BufZero (b.push 0) := by
  intro v hv
  rcases List.mem_or_eq_of_mem_set hv with h | h
  · exact hb v h
  · exact h

theorem run_replicate_zero {α σ : Type} [Zero α]
    (compute : CircularBuffer α → CircularBuffer α → σ → α × σ)
    (hz : ∀ x y st, BufZero x → BufZero y → (compute x y st).1 = 0)
    (L : ℕ) (p : RTProcessor α σ) (hx : BufZero p.x) (hy : BufZero p.y) :
    (p.run compute (List.replicate L 0)).1 = List.replicate L 0 := by
  induction L generalizing p with
  | zero => rfl
  | succ L ih =>
    rw [List.replicate_succ, RTProcessor.run_cons]
    have hout : (p.process compute 0).1 = 0 := hz _ _ _ (bufZero_push hx) hy
    have h2x : BufZero (p.process compute 0).2.x := bufZero_push hx
    have h2y : BufZero (p.process compute 0).2.y := by
      show BufZero (p.y.push (p.process compute 0).1)
      rw [hout]
      exact bufZero_push hy
    show (p.process compute 0).1 ::
        (RTProcessor.run compute (p.process compute 0).2 (List.replicate L 0)).1 =
      0 :: List.replicate L 0
    rw [hout, ih _ h2x h2y]

theorem delta_compute_zero (x y : CircularBuffer ℝ) (st : Unit)
    (hx : BufZero x) (hy : BufZero y) : (Delta.compute x y st).1 = 0 := by
  simp [Delta.compute, bufZero_get hx]

theorem echo_compute_zero (SF : ℕ) (x y : CircularBuffer ℝ) (st : Unit)
    (hx : BufZero x) (hy : BufZero y) : (Echo.compute SF x y st).1 = 0 := by
  simp [Echo.compute, bufZero_get hx]

theorem recursive_echo_compute_zero (SF : ℕ) (x y : CircularBuffer ℝ) (st : Unit)
    (hx : BufZero x) (hy : BufZero y) : (Recursive_Echo.compute SF x y st).1 = 0 := by
  simp [Recursive_Echo.compute, bufZero_get hx, bufZero_get hy]

theorem natural_echo_compute_zero (SF : ℕ) (x y : CircularBuffer ℝ) (st : Unit)
    (hx : BufZero x) (hy : BufZero y) : (Natural_Echo.compute SF x y st).1 = 0 := by
  simp [Natural_Echo.compute, bufZero_get hx, bufZero_get hy]

theorem reverb_compute_zero (SF : ℕ) (x y : CircularBuffer ℝ) (st : Unit)
    (hx : BufZero x) (hy : BufZero y) : (Reverb.compute SF x y st).1 = 0 := by
  simp [Reverb.compute, bufZero_get hx, bufZero_get hy]

theorem biquad_compute_zero (x y : CircularBuffer ℝ) (st : Unit)
    (hx : BufZero x) (hy : BufZero y) : (Biquad.compute x y st).1 = 0 := by
  simp [Biquad.compute, bufZero_get hx, bufZero_get hy]

theorem fuzz_compute_zero (x y : CircularBuffer ℝ) (st : Unit)
    (hx : BufZero x) (hy : BufZero y) : (Fuzz.compute x y st).1 = 0 := by
  have h1 : ¬((0:ℝ) > Fuzz.limit ℝ) := by norm_num [Fuzz.limit, Fuzz.T]
  have h2 : ¬((0:ℝ) < -Fuzz.limit ℝ) := by norm_num [Fuzz.limit, Fuzz.T]
  simp [Fuzz.compute, bufZero_get hx, h1, h2]

theorem wah_compute_zero (SF : ℕ) (x y : CircularBuffer ℝ) (omega : ℝ)
    (hx : BufZero x) (hy : BufZero y) : (Wah.compute SF x y omega).1 = 0 := by
  simp [Wah.compute, bufZero_get hx, bufZero_get hy]

theorem tremolo_compute_zero (SF : ℕ) (x y : CircularBuffer ℝ) (omega : ℝ)
    (hx : BufZero x) (hy : BufZero y) : (Tremolo.compute SF x y omega).1 = 0 := by
  simp [Tremolo.compute, bufZero_get hx]

/-- Claim C5: feeding an all-zero input sequence of any length into a freshly
constructed instance of any catalog effect yields an all-zero output
sequence. -/
theorem claim_C5_silence (SF channels L : ℕ) :
    Delta.runOn SF channels (List.replicate L 0) = List.replicate L 0 ∧
    Echo.runOn SF channels (List.replicate L 0) = List.replicate L 0 ∧
    Recursive_Echo.runOn SF channels (List.replicate L 0) = List.replicate L 0 ∧
    Natural_Echo.runOn SF channels (List.replicate L 0) = List.replicate L 0 ∧
    Reverb.runOn SF channels (List.replicate L 0) = List.replicate L 0 ∧
    Biquad.runOn SF channels (List.replicate L 0) = List.replicate L 0 ∧
    Fuzz.runOn SF channels (List.replicate L 0) = List.replicate L 0 ∧
    Wah.runOn SF channels (List.replicate L 0) = List.replicate L 0 ∧
    Tremolo.runOn SF channels (List.replicate L 0) = List.replicate L 0 :=
  ⟨run_replicate_zero _ (fun x y st hx hy => delta_compute_zero x y st hx hy) L _
      (bufZero_init ℝ 1) (bufZero_init ℝ 1),
    run_replicate_zero _ (fun x y st hx hy => echo_compute_zero SF x y st hx hy) L _
      (bufZero_init ℝ SF) (bufZero_init ℝ SF),
    run_replicate_zero _ (fun x y st hx hy => recursive_echo_compute_zero SF x y st hx hy) L _
      (bufZero_init ℝ SF) (bufZero_init ℝ SF),
    run_replicate_zero _ (fun x y st hx hy => natural_echo_compute_zero SF x y st hx hy) L _
      (bufZero_init ℝ SF) (bufZero_init ℝ SF),
    run_replicate_zero _ (fun x y st hx hy => reverb_compute_zero SF x y st hx hy) L _
      (bufZero_init ℝ SF) (bufZero_init ℝ SF),
    run_replicate_zero _ (fun x y st hx hy => biquad_compute_zero x y st hx hy) L _
      (bufZero_init ℝ 2) (bufZero_init ℝ 2),
    run_replicate_zero _ (fun x y st hx hy => fuzz_compute_zero x y st hx hy) L _
      (bufZero_init ℝ 1) (bufZero_init ℝ 1),
    run_replicate_zero _ (fun x y st hx hy => wah_compute_zero SF x y st hx hy) L _
      (bufZero_init ℝ 2) (bufZero_init ℝ 2),
    run_replicate_zero _ (fun x y st hx hy => tremolo_compute_zero SF x y st hx hy) L _
      (bufZero_init ℝ 1) (bufZero_init ℝ 1)⟩

/-- Claim C6: the Fuzz processor with `limit = INT32_MAX * 0.005` and `G = 5`
returns `G*x` when `|x| <= limit` (boundary included), `G*limit` when
`x > limit`, and `-G*limit` when `x < -limit`, on every call. -/
theorem claim_C6_fuzz_clamp (p : RTProcessor ℝ Unit) (s : ℝ) (hwf : p.x.WF) :
    (|s| ≤ Fuzz.limit ℝ → (p.process Fuzz.compute s).1 = Fuzz.G ℝ * s) ∧
    (s > Fuzz.limit ℝ → (p.process Fuzz.compute s).1 = Fuzz.G ℝ * Fuzz.limit ℝ) ∧
    (s < -Fuzz.limit ℝ → (p.process Fuzz.compute s).1 = -(Fuzz.G ℝ * Fuzz.limit ℝ)) := by
  have hget : (p.x.push s).get 0 = s := CircularBuffer.get_push_zero hwf s
  have hlimpos : (0:ℝ) < Fuzz.limit ℝ := by norm_num [Fuzz.limit, Fuzz.T]
  refine ⟨?_, ?_, ?_⟩
  · intro h
    have h1 : ¬(s > Fuzz.limit ℝ) := not_lt.mpr (abs_le.mp h).2
    have h2 : ¬(s < -Fuzz.limit ℝ) := not_lt.mpr (abs_le.mp h).1
    simp [RTProcessor.process, Fuzz.compute, hget, h1, h2]
  · intro h
    have h2 : ¬(Fuzz.limit ℝ < -Fuzz.limit ℝ) := by linarith
    simp [RTProcessor.process, Fuzz.compute, hget, h, h2]
  · intro h
    have h1 : ¬(s > Fuzz.limit ℝ) := by push_neg; nlinarith
    simp only [RTProcessor.process, Fuzz.compute, hget, if_neg h1, if_pos h]
    ring

theorem claim_C6_witness :
    ((Fuzz.init 16000 1).x.WF ∧ |Fuzz.limit ℝ| ≤ Fuzz.limit ℝ) ∧
    ((Fuzz.init 16000 1).process Fuzz.compute (Fuzz.limit ℝ)).1 = Fuzz.G ℝ * Fuzz.limit ℝ := by
  have habs : |Fuzz.limit ℝ| ≤ Fuzz.limit ℝ := by
    rw [abs_of_pos (by norm_num [Fuzz.limit, Fuzz.T])]
  exact ⟨⟨CircularBuffer.wf_init ℝ 1, habs⟩,
    (claim_C6_fuzz_clamp (Fuzz.init 16000 1) (Fuzz.limit ℝ) (CircularBuffer.wf_init ℝ 1)).1 habs⟩

/-! ### Per-index history lemmas -/

theorem List.getD_take_of_lt {α : Type} (l : List α) (m j : ℕ) (d : α) (h : j < m) :
    (l.take m).getD j d = l.getD j d := by
  rcases lt_or_ge j l.length with hj | hj
  · have h1 : j < (l.take m).length := by rw [List.length_take]; omega
    rw [List.getD_eq_getElem _ _ h1, List.getD_eq_getElem _ _ hj]
    exact List.getElem_take _
  · rw [List.getD_eq_default _ _ (by rw [List.length_take]; omega),
      List.getD_eq_default _ _ hj]

/-- The input history during sample `n`: right after `xs[n]` was pushed, the
buffer has seen `xs.take (n+1)`, so offset `k` is `xs[n-k]` (0 for `k > n`). -/
theorem histGet_take_succ {α : Type} [Zero α] (xs : List α) (n k : ℕ) (h : n < xs.length) :
    histGet (xs.take (n + 1)) k = if k ≤ n then xs.getD (n - k) 0 else 0 := by
  unfold histGet
  have hlen : (xs.take (n + 1)).length = n + 1 := by rw [List.length_take]; omega
  rw [hlen]
  by_cases hk : k ≤ n
  · rw [if_pos (by omega), if_pos hk]
    have heq : n + 1 - 1 - k = n - k := by omega
    rw [heq]
    exact List.getD_take_of_lt _ _ _ _ (by omega)
  · rw [if_neg (by omega), if_neg hk]

/-- The output history during sample `n`: only `n` outputs were pushed so far,
so offset `k` is output `n - (k+1)` (0 for `k + 1 > n`) — one sample older
than offset `k` of the input history. -/
theorem histGet_take {α : Type} [Zero α] (l : List α) (n k : ℕ) (h : n ≤ l.length) :
    histGet (l.take n) k = if k + 1 ≤ n then l.getD (n - (k + 1)) 0 else 0 := by
  unfold histGet
  have hlen : (l.take n).length = n := by rw [List.length_take]; omega
  rw [hlen]
  by_cases hk : k + 1 ≤ n
  · rw [if_pos (by omega), if_pos hk]
    have heq : n - 1 - k = n - (k + 1) := by omega
    rw [heq]
    exact List.getD_take_of_lt _ _ _ _ (by omega)
  · rw [if_neg (by omega), if_neg hk]

/-- For a `compute` whose extra state advances by a fixed step per sample
(the oscillator phase of Wah and Tremolo), `run` adds one step per sample. -/
theorem run_st_shift (compute : CircularBuffer ℝ → CircularBuffer ℝ → ℝ → ℝ × ℝ)
    (phi : ℝ) (hst : ∀ x y st, (compute x y st).2 = st + phi)
    (xs : List ℝ) (p : RTProcessor ℝ ℝ) :
    (p.run compute xs).2.st = p.st + xs.length * phi := by
  induction xs generalizing p with
  | nil => simp [RTProcessor.run_nil]
  | cons s rest ih =>
    rw [RTProcessor.run_cons]
    show ((p.process compute s).2.run compute rest).2.st = _
    rw [ih]
    have hstep : (p.process compute s).2.st = p.st + phi := hst _ _ _
    rw [hstep, List.length_cons]
    push_cast
    ring

/-! ### Recursive_Echo impulse response -/

/-- A unit impulse followed by `L` zeros. -/
noncomputable def impulse (L : ℕ) : List ℝ := 1 :: List.replicate L 0

theorem impulse_length (L : ℕ) : (impulse L).length = L + 1 := by
  simp [impulse]

theorem recEcho_N_le (SF : ℕ) : Recursive_Echo.N SF ≤ SF := by
  unfold Recursive_Echo.N
  calc 3 * SF / 10 ≤ 10 * SF / 10 := Nat.div_le_div_right (by omega)
    _ = SF := Nat.mul_div_cancel_left SF (by norm_num)

/-- The per-sample recurrence actually realised by the code on the impulse
input: `y[n] = norm·x[n] + norm·a·y[n-(N+1)]` — the feedback tap is one
sample older than `y[n-N]` because the output history has not yet received
`y[n]` when `self.y.get(self.N)` is evaluated. -/
theorem recEcho_rec (SF channels L n : ℕ) (hn : n ≤ L) :
    (Recursive_Echo.runOn SF channels (impulse L)).getD n 0 =
      Recursive_Echo.norm * (impulse L).getD n 0 +
      Recursive_Echo.norm * Recursive_Echo.a *
        (if Recursive_Echo.N SF + 1 ≤ n then
          (Recursive_Echo.runOn SF channels (impulse L)).getD (n - (Recursive_Echo.N SF + 1)) 0
        else 0) := by
  have hn' : n < (impulse L).length := by rw [impulse_length]; omega
  unfold Recursive_Echo.runOn Recursive_Echo.init
  rw [RTProcessor.run_getD_fresh (Recursive_Echo.compute SF) SF () (impulse L) n hn']
  simp only [Recursive_Echo.compute]
  rw [CircularBuffer.get_pushList_init ℝ SF _ 0 (Nat.zero_le _),
    CircularBuffer.get_pushList_init ℝ SF _ (Recursive_Echo.N SF) (recEcho_N_le SF)]
  rw [histGet_take_succ _ n 0 hn']
  rw [histGet_take _ n (Recursive_Echo.N SF)
    (by rw [RTProcessor.run_fst_length, impulse_length]; omega)]
  rw [if_pos (Nat.zero_le n), Nat.sub_zero]
  ring

/-- Closed form of the impulse response: nonzero echoes sit at the multiples
of `N + 1` and decay geometrically by `norm * a` per period. -/
theorem recEcho_impulse_closed (SF channels L : ℕ) :
    ∀ n, n ≤ L →
      (Recursive_Echo.runOn SF channels (impulse L)).getD n 0 =
        if (Recursive_Echo.N SF + 1) ∣ n then
          Recursive_Echo.norm *
            (Recursive_Echo.norm * Recursive_Echo.a) ^ (n / (Recursive_Echo.N SF + 1))
        else 0 := by
  intro n
  induction n using Nat.strong_induction_on with
  | _ n ih =>
    intro hn
    rw [recEcho_rec SF channels L n hn]
    by_cases h0 : n = 0
    · subst h0
      rw [if_neg (by omega), if_pos (dvd_zero _), Nat.zero_div, pow_zero]
      have himp0 : (impulse L).getD 0 0 = 1 := rfl
      rw [himp0]
      ring
    · have himp : (impulse L).getD n 0 = 0 := by
        rcases Nat.exists_eq_succ_of_ne_zero h0 with ⟨m, rfl⟩
        show (List.replicate L (0:ℝ)).getD m 0 = 0
        exact List.getD_eq_zero_of_forall _ _ (fun v hv => List.eq_of_mem_replicate hv)
      rw [himp]
      by_cases hge : Recursive_Echo.N SF + 1 ≤ n
      · rw [if_pos hge]
        have hsub : n - (Recursive_Echo.N SF + 1) < n := by omega
        rw [ih _ hsub (by omega)]
        by_cases hdvd : (Recursive_Echo.N SF + 1) ∣ n
        · have hdvd' : (Recursive_Echo.N SF + 1) ∣ (n - (Recursive_Echo.N SF + 1)) :=
            Nat.dvd_sub' hdvd dvd_rfl
          rw [if_pos hdvd', if_pos hdvd]
          obtain ⟨k, hk⟩ := hdvd
          cases k with
          | zero => omega
          | succ j =>
            have hk' : n = (Recursive_Echo.N SF + 1) * j + (Recursive_Echo.N SF + 1) := by
              rw [hk]; ring
            have hq1 : n / (Recursive_Echo.N SF + 1) = j + 1 := by
              rw [hk]; exact Nat.mul_div_cancel_left _ (by omega)
            have hsub' : n - (Recursive_Echo.N SF + 1) = (Recursive_Echo.N SF + 1) * j := by
              omega
            have hq2 : (n - (Recursive_Echo.N SF + 1)) / (Recursive_Echo.N SF + 1) = j := by
              rw [hsub']; exact Nat.mul_div_cancel_left _ (by omega)
            rw [hq1, hq2, pow_succ]
            ring
        · have hdvd' : ¬ (Recursive_Echo.N SF + 1) ∣ (n - (Recursive_Echo.N SF + 1)) := by
            intro hc
            apply hdvd
            have hrepr : n = (n - (Recursive_Echo.N SF + 1)) + (Recursive_Echo.N SF + 1) := by
              omega
            rw [hrepr]
            exact Nat.dvd_add hc dvd_rfl
          rw [if_neg hdvd', if_neg hdvd]
          ring
      · rw [if_neg hge]
        have hnd : ¬ (Recursive_Echo.N SF + 1) ∣ n := by
          intro hc
          have := Nat.le_of_dvd (by omega) hc
          omega
        rw [if_neg hnd]
        ring

/-- Claim C7 counterexample: for `SF = 10` (`N = int(0.3 * SF) = 3`) the
impulse response of the code's `Recursive_Echo` is exactly zero at sample
index `N`, where the claim asserts a nonzero echo (the echoes actually sit at
multiples of `N + 1`). -/
theorem claim_C7_counterexample :
    (Recursive_Echo.runOn 10 1 (impulse 12)).getD (Recursive_Echo.N 10) 0 = 0 := by
  rw [recEcho_impulse_closed 10 1 12 (Recursive_Echo.N 10) (by decide)]
  rw [if_neg (by decide)]

/-- Claim C7 (amended): on the impulse input, the nonzero echoes of
`Recursive_Echo` occur at the sample indices `k * (N + 1)` (the feedback tap
`self.y.get(self.N)` reads the output `N + 1` samples back), their values are
`norm * (norm * a)^k`, consecutive echoes decay geometrically by the factor
`norm * a` (not `a`: the code multiplies `norm` into the feedback term as
well), and the output at index `N` itself is zero (for `N ≥ 1`). -/
theorem claim_C7_recursive_echo_amended (SF channels L : ℕ)
    (hL : 3 * (Recursive_Echo.N SF + 1) ≤ L) :
    (∀ k, k ≤ 3 →
      (Recursive_Echo.runOn SF channels (impulse L)).getD
          (k * (Recursive_Echo.N SF + 1)) 0 =
        Recursive_Echo.norm * (Recursive_Echo.norm * Recursive_Echo.a) ^ k) ∧
    (∀ k, k ≤ 3 →
      (Recursive_Echo.runOn SF channels (impulse L)).getD
          (k * (Recursive_Echo.N SF + 1)) 0 ≠ 0) ∧
    (∀ k, 1 ≤ k → k ≤ 3 →
      (Recursive_Echo.runOn SF channels (impulse L)).getD
          (k * (Recursive_Echo.N SF + 1)) 0 =
        (Recursive_Echo.norm * Recursive_Echo.a) *
          (Recursive_Echo.runOn SF channels (impulse L)).getD
            ((k - 1) * (Recursive_Echo.N SF + 1)) 0) ∧
    (1 ≤ Recursive_Echo.N SF →
      (Recursive_Echo.runOn SF channels (impulse L)).getD (Recursive_Echo.N SF) 0 = 0) := by
  have hval : ∀ k, k ≤ 3 →
      (Recursive_Echo.runOn SF channels (impulse L)).getD
          (k * (Recursive_Echo.N SF + 1)) 0 =
        Recursive_Echo.norm * (Recursive_Echo.norm * Recursive_Echo.a) ^ k := by
    intro k hk
    have hb : k * (Recursive_Echo.N SF + 1) ≤ L :=
      le_trans (Nat.mul_le_mul_right _ hk) hL
    rw [recEcho_impulse_closed SF channels L _ hb]
    rw [if_pos (dvd_mul_left _ _)]
    rw [Nat.mul_div_cancel _ (by omega)]
  have hnz : Recursive_Echo.norm * Recursive_Echo.a ≠ 0 ∧ Recursive_Echo.norm ≠ 0 := by
    norm_num [Recursive_Echo.norm, Recursive_Echo.a]
  refine ⟨hval, ?_, ?_, ?_⟩
  · intro k hk
    rw [hval k hk]
    exact mul_ne_zero hnz.2 (pow_ne_zero _ hnz.1)
  · intro k hk1 hk3
    rw [hval k hk3, hval (k - 1) (by omega)]
    obtain ⟨j, rfl⟩ : ∃ j, k = j + 1 := ⟨k - 1, by omega⟩
    have hj : j + 1 - 1 = j := rfl
    rw [hj, pow_succ]
    ring
  · intro hN
    rw [recEcho_impulse_closed SF channels L _ (by omega)]
    rw [if_neg ?_]
    intro hc
    have := Nat.le_of_dvd (by omega) hc
    omega

theorem claim_C7_witness :
    3 * (Recursive_Echo.N 10 + 1) ≤ 12 ∧ 2 ≤ 3 ∧
    (Recursive_Echo.runOn 10 1 (impulse 12)).getD (2 * (Recursive_Echo.N 10 + 1)) 0 =
      Recursive_Echo.norm * (Recursive_Echo.norm * Recursive_Echo.a) ^ 2 :=
  ⟨by decide, by norm_num,
    (claim_C7_recursive_echo_amended 10 1 12 (by decide)).1 2 (by norm_num)⟩

/-! ### Biquad: the realised feedback taps -/

theorem biquad_out0 :
    (Biquad.runOn 16000 1 [1, 0]).getD 0 0 = Biquad.norm := by
  unfold Biquad.runOn Biquad.init
  rw [RTProcessor.run_getD_fresh Biquad.compute 2 () [1, 0] 0 (by norm_num)]
  simp only [Biquad.compute]
  rw [CircularBuffer.get_pushList_init ℝ 2 _ 0 (by norm_num),
    CircularBuffer.get_pushList_init ℝ 2 _ 1 (by norm_num),
    CircularBuffer.get_pushList_init ℝ 2 _ 2 (by norm_num)]
  rw [histGet_take_succ _ 0 0 (by norm_num), histGet_take_succ _ 0 1 (by norm_num),
    histGet_take_succ _ 0 2 (by norm_num)]
  rw [CircularBuffer.get_pushList_init ℝ 2 _ 1 (by norm_num),
    CircularBuffer.get_pushList_init ℝ 2 _ 2 (by norm_num)]
  rw [histGet_take _ 0 1 (by rw [RTProcessor.run_fst_length]; norm_num),
    histGet_take _ 0 2 (by rw [RTProcessor.run_fst_length]; norm_num)]
  norm_num

theorem biquad_out1 :
    (Biquad.runOn 16000 1 [1, 0]).getD 1 0 = Biquad.norm * Biquad.b1 := by
  unfold Biquad.runOn Biquad.init
  rw [RTProcessor.run_getD_fresh Biquad.compute 2 () [1, 0] 1 (by norm_num)]
  simp only [Biquad.compute]
  rw [CircularBuffer.get_pushList_init ℝ 2 _ 0 (by norm_num),
    CircularBuffer.get_pushList_init ℝ 2 _ 1 (by norm_num),
    CircularBuffer.get_pushList_init ℝ 2 _ 2 (by norm_num)]
  rw [histGet_take_succ _ 1 0 (by norm_num), histGet_take_succ _ 1 1 (by norm_num),
    histGet_take_succ _ 1 2 (by norm_num)]
  rw [CircularBuffer.get_pushList_init ℝ 2 _ 1 (by norm_num),
    CircularBuffer.get_pushList_init ℝ 2 _ 2 (by norm_num)]
  rw [histGet_take _ 1 1 (by rw [RTProcessor.run_fst_length]; norm_num),
    histGet_take _ 1 2 (by rw [RTProcessor.run_fst_length]; norm_num)]
  norm_num

theorem biquad_a1_neg : Biquad.a1 < 0 := by
  have hcos : 0 < Real.cos Biquad.pp := by
    apply Real.cos_pos_of_mem_Ioo
    constructor
    · unfold Biquad.pp
      nlinarith [Real.pi_pos]
    · unfold Biquad.pp
      nlinarith [Real.pi_pos]
  unfold Biquad.a1 Biquad.pm
  nlinarith [hcos]

/-- Claim C1: evaluation of the Biquad code at the failing input `[1, 0]`.
The code's second output is `norm * b1`, because `self.y.get(1)` inside
`_process` returns the output two samples back (the current output has not
been pushed yet), i.e. `y[-1] = 0` here; the claimed difference equation
(also the code's own comment, which uses `y[n-1]`) requires
`norm * (b1 - a1 * y[0])` with `y[0] = norm ≠ 0` and `a1 ≠ 0`, so the two
disagree at sample index 1. -/
theorem claim_C1_biquad_eval :
    (Biquad.runOn 16000 1 [1, 0]).getD 0 0 = Biquad.norm ∧
    (Biquad.runOn 16000 1 [1, 0]).getD 1 0 = Biquad.norm * Biquad.b1 ∧
    (Biquad.runOn 16000 1 [1, 0]).getD 1 0 ≠
      Biquad.norm * (0 + Biquad.b1 * 1 + Biquad.b2 * 0
        - Biquad.a1 * ((Biquad.runOn 16000 1 [1, 0]).getD 0 0) - Biquad.a2 * 0) := by
  refine ⟨biquad_out0, biquad_out1, ?_⟩
  rw [biquad_out0, biquad_out1]
  intro heq
  have ha1 := biquad_a1_neg
  have hnorm : Biquad.norm = 0.1 := rfl
  rw [hnorm] at heq
  nlinarith [heq, ha1]

/-! ### Tremolo and Wah phase accumulators -/

theorem tremolo_st_step (SF : ℕ) :
    ∀ (x y : CircularBuffer ℝ) (st : ℝ), (Tremolo.compute SF x y st).2 = st + Tremolo.phi SF :=
  fun _ _ _ => rfl

theorem wah_st_step (SF : ℕ) :
    ∀ (x y : CircularBuffer ℝ) (st : ℝ), (Wah.compute SF x y st).2 = st + Wah.phi SF :=
  fun _ _ _ => rfl

/-- Claim C10: Tremolo advances its phase before evaluating the cosine, so
sample `n` (0-based) is scaled using phase `(n+1)·phi` (the first sample uses
`omega = phi`); Wah evaluates the cosine of its phase before incrementing, so
the pole deviation `d` of sample `n` uses phase `n·phi` (the first sample uses
`omega = 0`). -/
theorem claim_C10_phase_order (SF channels : ℕ) (xs : List ℝ) (n : ℕ) (h : n < xs.length) :
    (Tremolo.runOn SF channels xs).getD n 0 =
      ((1 - Tremolo.depth) + Tremolo.depth * 0.5 *
        (1 + Real.cos (((n : ℝ) + 1) * Tremolo.phi SF))) * xs.getD n 0 ∧
    (Wah.runOn SF channels xs).getD n 0 =
      0.3 * (xs.getD n 0
        + Wah.b1 ((n : ℝ) * Wah.phi SF) * (if 1 ≤ n then xs.getD (n - 1) 0 else 0)
        + Wah.b2 * (if 2 ≤ n then xs.getD (n - 2) 0 else 0)
        - Wah.a1 ((n : ℝ) * Wah.phi SF) *
            (if 2 ≤ n then (Wah.runOn SF channels xs).getD (n - 2) 0 else 0)
        - Wah.a2 * (if 3 ≤ n then (Wah.runOn SF channels xs).getD (n - 3) 0 else 0)) := by
  have htklen : (xs.take n).length = n := by rw [List.length_take]; omega
  constructor
  · unfold Tremolo.runOn Tremolo.init
    rw [RTProcessor.run_getD_fresh (Tremolo.compute SF) 1 0 xs n h]
    simp only [Tremolo.compute]
    rw [run_st_shift (Tremolo.compute SF) (Tremolo.phi SF) (tremolo_st_step SF) (xs.take n) _]
    rw [CircularBuffer.get_pushList_init ℝ 1 _ 0 (Nat.zero_le _)]
    rw [histGet_take_succ _ n 0 h, if_pos (Nat.zero_le n), Nat.sub_zero]
    rw [htklen]
    show ((1.0 - Tremolo.depth) + Tremolo.depth * 0.5 *
        (1 + Real.cos ((RTProcessor.fresh ℝ 1 (0:ℝ)).st + (n : ℝ) * Tremolo.phi SF
          + Tremolo.phi SF))) * xs.getD n 0 = _
    have hst0 : (RTProcessor.fresh ℝ 1 (0:ℝ)).st = 0 := rfl
    rw [hst0]
    have harg : (0 : ℝ) + (n : ℝ) * Tremolo.phi SF + Tremolo.phi SF
        = ((n : ℝ) + 1) * Tremolo.phi SF := by ring
    rw [harg]
    norm_num
  · unfold Wah.runOn Wah.init
    rw [RTProcessor.run_getD_fresh (Wah.compute SF) 2 0.0 xs n h]
    simp only [Wah.compute]
    rw [run_st_shift (Wah.compute SF) (Wah.phi SF) (wah_st_step SF) (xs.take n) _]
    rw [CircularBuffer.get_pushList_init ℝ 2 _ 0 (by norm_num),
      CircularBuffer.get_pushList_init ℝ 2 _ 1 (by norm_num),
      CircularBuffer.get_pushList_init ℝ 2 _ 2 (by norm_num)]
    rw [histGet_take_succ _ n 0 h, histGet_take_succ _ n 1 h, histGet_take_succ _ n 2 h]
    rw [CircularBuffer.get_pushList_init ℝ 2 _ 1 (by norm_num),
      CircularBuffer.get_pushList_init ℝ 2 _ 2 (by norm_num)]
    rw [histGet_take _ n 1 (by rw [RTProcessor.run_fst_length]; omega),
      histGet_take _ n 2 (by rw [RTProcessor.run_fst_length]; omega)]
    rw [htklen]
    have hst0 : (RTProcessor.fresh ℝ 2 (0.0:ℝ)).st = 0 := by norm_num [RTProcessor.fresh]
    rw [hst0]
    have harg : (0 : ℝ) + (n : ℝ) * Wah.phi SF = (n : ℝ) * Wah.phi SF := by ring
    rw [harg]
    rw [if_pos (Nat.zero_le n), Nat.sub_zero]

theorem claim_C10_witness :
    (1 < ([1, 0] : List ℝ).length) ∧
    ((Tremolo.runOn 10 1 [1, 0]).getD 1 0 =
        ((1 - Tremolo.depth) + Tremolo.depth * 0.5 *
          (1 + Real.cos ((((1:ℕ) : ℝ) + 1) * Tremolo.phi 10))) * ([1, 0] : List ℝ).getD 1 0 ∧
      (Wah.runOn 10 1 [1, 0]).getD 1 0 =
        0.3 * (([1, 0] : List ℝ).getD 1 0
          + Wah.b1 (((1:ℕ) : ℝ) * Wah.phi 10) *
              (if 1 ≤ 1 then ([1, 0] : List ℝ).getD (1 - 1) 0 else 0)
          + Wah.b2 * (if 2 ≤ 1 then ([1, 0] : List ℝ).getD (1 - 2) 0 else 0)
          - Wah.a1 (((1:ℕ) : ℝ) * Wah.phi 10) *
              (if 2 ≤ 1 then (Wah.runOn 10 1 [1, 0]).getD (1 - 2) 0 else 0)
          - Wah.a2 * (if 3 ≤ 1 then (Wah.runOn 10 1 [1, 0]).getD (1 - 3) 0 else 0))) :=
  ⟨by norm_num, claim_C10_phase_order 10 1 [1, 0] 1 (by norm_num)⟩
